import Mathlib

/-!
Shallow embedding of the change-tracking document core of the
firestore-orm repository (src/admin/document.ts, src/shared/utils.ts,
src/shared/async-queue.ts, src/web/collection.ts), together with proofs
settling the frozen claims about it.

Modelling conventions:
- JavaScript values flowing through the document layer are modelled by the
  inductive `FSValue`.  JavaScript `undefined` is the constructor `undef`
  (distinct from `vNull`, the JS `null`).  `Date` and the store `Timestamp`
  are both carried as millisecond integers.  The `FieldValue.delete()`
  sentinel (`DELETE_FIELD` in src/admin/firestore.ts) is the constructor
  `deleteF`; it is a module-level singleton, so reference identity on it is
  value identity.
- JS objects are association lists in insertion order (`FSObj`), matching
  the enumeration order of plain JS objects; property assignment keeps the
  position of an existing key and appends a fresh key, exactly as JS does.
- `structuredClone` is the identity in this pure model.
- The change ledger (`_updated`, a JS `Map`) is an insertion-ordered
  association list `List (String × FSValue)`; `Map.set` is only reached
  when the key is absent (guarded by `has`), hence modelled by appending.
- Effectful operations are state transformers returning the successor
  state and an explicit outcome value describing which write (if any) was
  handed to the store, or which structured error was thrown.
-/

namespace FirestoreORM

mutual

/-- Model of the JS values handled by the document layer: primitives,
dates, store timestamps, the delete sentinel, arrays and plain objects,
plus the JS `undefined` value. -/
inductive FSValue : Type where
  | undef : FSValue
  | vNull : FSValue
  | vBool : Bool → FSValue
  | vInt : Int → FSValue
  | vStr : String → FSValue
  | vDate : Int → FSValue
  | vTimestamp : Int → FSValue
  | deleteF : FSValue
  | vArr : FSList → FSValue
  | vObj : FSObj → FSValue

/-- A JS array of model values. -/
inductive FSList : Type where
  | nil : FSList
  | cons : FSValue → FSList → FSList

/-- A plain JS object: association list of string keys and values in
insertion (enumeration) order. -/
inductive FSObj : Type where
  | nil : FSObj
  | cons : String → FSValue → FSObj → FSObj

end

/-- Whether a value is the JS `undefined`. -/
def FSValue.isUndef : FSValue → Bool
  | .undef => true
  | _ => false

/-- Whether a value is the `DELETE_FIELD` sentinel; this is the model of
`DELETE_FIELD.isEqual(v)`, which holds exactly for the sentinel itself. -/
def FSValue.isDeleteF : FSValue → Bool
  | .deleteF => true
  | _ => false

/-- Property read `obj[key]`: the value at the first matching key, or the
JS `undefined` when the key is absent. -/
def FSObj.get : FSObj → String → FSValue
  | .nil, _ => .undef
  | .cons k v tl, key => if k = key then v else tl.get key

/-- The JS `key in obj` test. -/
def FSObj.has : FSObj → String → Bool
  | .nil, _ => false
  | .cons k _ tl, key => if k = key then true else tl.has key

/-- Property write `obj[key] = v`: replaces in place when the key exists,
appends otherwise (JS enumeration-order semantics). -/
def FSObj.set : FSObj → String → FSValue → FSObj
  | .nil, key, val => .cons key val .nil
  | .cons k v tl, key, val =>
      if k = key then .cons k val tl else .cons k v (tl.set key val)

/-- The JS `delete obj[key]` operation. -/
def FSObj.erase : FSObj → String → FSObj
  | .nil, _ => .nil
  | .cons k v tl, key =>
      if k = key then tl.erase key else .cons k v (tl.erase key)

/-- Enumeration-order key list of an object. -/
def FSObj.keys : FSObj → List String
  | .nil => []
  | .cons k _ tl => k :: tl.keys

/-- Object concatenation, a reasoning helper (not a source operation). -/
def FSObj.append : FSObj → FSObj → FSObj
  | .nil, other => other
  | .cons k v tl, other => .cons k v (tl.append other)

/-- The `Object.assign(target, source)` operation: assigns each source
property into the target in source enumeration order. -/
def FSObj.assign : FSObj → FSObj → FSObj
  | target, .nil => target
  | target, .cons k v tl => (target.set k v).assign tl

/-- The key-removal loop of `setData` (document.ts): deletes every key of
the current data except the synthetic `_id`. -/
def FSObj.keepOnlyId : FSObj → FSObj
  | .nil => .nil
  | .cons k v tl => if k = "_id" then .cons k v (tl.keepOnlyId) else tl.keepOnlyId

/-- The sentinel-conversion loop of `setData`: any top-level field holding
the delete sentinel is overwritten with JS `undefined`. -/
def FSObj.convertDeletes : FSObj → FSObj
  | .nil => .nil
  | .cons k v tl =>
      .cons k (if v.isDeleteF then .undef else v) (tl.convertDeletes)

mutual

/-- Model of `serializeValue` (document.ts): recursively converts `Date`
to the store `Timestamp`, walks arrays and plain objects, passes
primitives, timestamps and class instances (such as the delete sentinel)
through unchanged. -/
def serializeValue : FSValue → FSValue
  | .undef => .undef
  | .vNull => .vNull
  | .vBool b => .vBool b
  | .vInt n => .vInt n
  | .vStr s => .vStr s
  | .vDate ms => .vTimestamp ms
  | .vTimestamp ms => .vTimestamp ms
  | .deleteF => .deleteF
  | .vArr xs => .vArr (serializeList xs)
  | .vObj fs => .vObj (serializeObject fs)

/-- Element-wise serialization of an array (the `value.map` call). -/
def serializeList : FSList → FSList
  | .nil => .nil
  | .cons v tl => .cons (serializeValue v) (serializeList tl)

/-- Model of `serializeObject` (document.ts): serializes every property
and drops those whose serialized value is `undefined`. -/
def serializeObject : FSObj → FSObj
  | .nil => .nil
  | .cons k v tl =>
      let sv := serializeValue v
      if sv.isUndef then serializeObject tl else .cons k sv (serializeObject tl)

end

mutual

/-- Model of `unserializeValue` (document.ts): converts store timestamps
back to dates, walks arrays and plain objects, passes the rest through. -/
def unserializeValue : FSValue → FSValue
  | .undef => .undef
  | .vNull => .vNull
  | .vBool b => .vBool b
  | .vInt n => .vInt n
  | .vStr s => .vStr s
  | .vDate ms => .vDate ms
  | .vTimestamp ms => .vDate ms
  | .deleteF => .deleteF
  | .vArr xs => .vArr (unserializeList xs)
  | .vObj fs => .vObj (unserializeObject fs)

/-- Element-wise unserialization of an array. -/
def unserializeList : FSList → FSList
  | .nil => .nil
  | .cons v tl => .cons (unserializeValue v) (unserializeList tl)

/-- Model of `unserializeObject`: unserializes every property (no
dropping, unlike serialization). -/
def unserializeObject : FSObj → FSObj
  | .nil => .nil
  | .cons k v tl => .cons k (unserializeValue v) (unserializeObject tl)

end

mutual

/-- Model of `deepEqual` (src/shared/utils.ts): value identity on
primitives (including `undefined`, `null`, and the singleton delete
sentinel), dates compared by millisecond timestamp, arrays element-wise
after a length check, plain objects by key count and per-key recursive
comparison of `a[key]` with `b[key]` (an absent key reads as
`undefined`, which compares equal only to `undefined`).  Store timestamps
compare by their field contents.  Cross-kind comparisons are false. -/
def deepEqual : FSValue → FSValue → Bool
  | .undef, .undef => true
  | .vNull, .vNull => true
  | .vBool x, .vBool y => x == y
  | .vInt x, .vInt y => x == y
  | .vStr x, .vStr y => x == y
  | .vDate x, .vDate y => x == y
  | .vTimestamp x, .vTimestamp y => x == y
  | .deleteF, .deleteF => true
  | .vArr xs, .vArr ys => lengthList xs == lengthList ys && deepEqualList xs ys
  | .vObj fs, .vObj gs => lengthObj fs == lengthObj gs && deepEqualFields gs fs
  | _, _ => false

/-- Pairwise array comparison (used after the length check). -/
def deepEqualList : FSList → FSList → Bool
  | .nil, _ => true
  | .cons _ _, .nil => false
  | .cons x xs, .cons y ys => deepEqual x y && deepEqualList xs ys

/-- Per-key comparison of the fields of the second argument against the
object `other`: for each key `k` with value `v`, compares `v` with
`other[k]`. -/
def deepEqualFields : (other : FSObj) → FSObj → Bool
  | _, .nil => true
  | other, .cons k v tl => deepEqual v (other.get k) && deepEqualFields other tl

/-- Array length helper for the comparison. -/
def lengthList : FSList → Nat
  | .nil => 0
  | .cons _ tl => lengthList tl + 1

/-- Object key-count helper for the comparison (`Object.keys(a).length`). -/
def lengthObj : FSObj → Nat
  | .nil => 0
  | .cons _ _ tl => lengthObj tl + 1

end

/-- Top-level object deep equality, the form used by `setData`. -/
def deepEqualObj (a b : FSObj) : Bool :=
  deepEqual (.vObj a) (.vObj b)

/-- The change ledger `_updated`: a JS `Map` from field name to the value
the field held before its first pending change, in insertion order. -/
abbrev Ledger := List (String × FSValue)

/-- Whether the ledger has an entry for a key (`Map.has`). -/
def ledgerHas (l : Ledger) (k : String) : Bool :=
  l.any (fun p => p.1 = k)

/-- Ledger lookup (`Map.get`), first entry wins (keys are unique since
insertion is guarded by `has`). -/
def ledgerGet : Ledger → String → Option FSValue
  | [], _ => none
  | p :: tl, k => if p.1 = k then some p.2 else ledgerGet tl k

/-- State of a `FirestoreDocument` instance: whether a document reference
is resolved (`reference !== undefined`), the backing `_data` object, the
`_exist` and `_isLoaded` flags, the change ledger `_updated`, the
full-overwrite flag `_updatedAll`, and whether a snapshot listener is
installed (`_unwatch !== undefined`). -/
structure DocState where
  hasRef : Bool
  data : FSObj
  exist : Bool
  isLoaded : Bool
  updated : Ledger
  updatedAll : Bool
  watching : Bool

/-- The `isDirty` getter: pending field changes or full-overwrite flag. -/
def isDirty (s : DocState) : Bool :=
  !s.updated.isEmpty || s.updatedAll

/-- Model of `setValue` (document.ts): records the prior value in the
ledger on the first write to a key in a dirty period (recording
`undefined` when the prior value is the delete sentinel), then stores the
new value; a write of `undefined` on a present key stores the delete
sentinel when the document exists remotely and removes the key outright
when it does not. -/
def setValue (s : DocState) (key : String) (value : FSValue) : DocState :=
  let s1 :=
    if ledgerHas s.updated key then s
    else
      let oldValue := s.data.get key
      if oldValue.isDeleteF then
        { s with updated := s.updated ++ [(key, .undef)] }
      else
        { s with updated := s.updated ++ [(key, oldValue)] }
  if value.isUndef then
    if s1.data.has key then
      if s1.exist then { s1 with data := s1.data.set key .deleteF }
      else { s1 with data := s1.data.erase key }
    else s1
  else { s1 with data := s1.data.set key value }

/-- Model of `setData` (document.ts, plain-object branch): when the
incoming object is deep-equal to the current data, only the tracking
state is reset (ledger cleared, full-overwrite flag set to the
`updatedAll` argument) and `false` is returned; otherwise top-level
delete sentinels in the incoming object are converted to `undefined`,
every current key except `_id` is deleted, the incoming fields are
assigned in, tracking is reset the same way, and `true` is returned.
`structuredClone` of the argument is the identity here. -/
def setData (s : DocState) (d : FSObj) (updatedAll : Bool) : DocState × Bool :=
  if deepEqualObj d s.data then
    ({ s with updated := [], updatedAll := updatedAll }, false)
  else
    let d2 := d.convertDeletes
    let newData := (s.data.keepOnlyId).assign d2
    ({ s with data := newData, updated := [], updatedAll := updatedAll }, true)

/-- Model of `afterSave`: clears the ledger and the full-overwrite flag
and marks the document as existing. -/
def afterSave (s : DocState) : DocState :=
  { s with updated := [], updatedAll := false, exist := true }

/-- The update-path branch of `serialize` (document.ts): builds the
payload by walking the ledger keys in insertion order, serializing
`data[key]` and dropping entries whose serialized value is `undefined`. -/
def serializeUpdated (data : FSObj) : Ledger → FSObj
  | [] => .nil
  | (k, _) :: tl =>
      let v := serializeValue (data.get k)
      if v.isUndef then serializeUpdated data tl
      else .cons k v (serializeUpdated data tl)

/-- Model of `serialize` (document.ts): with a ledger, the restricted
payload over ledger keys; without one, the whole data minus the synthetic
`_id` field, serialized object-wise. -/
def serialize (data : FSObj) : Option Ledger → FSObj
  | some upd => serializeUpdated data upd
  | none => serializeObject (data.erase "_id")

/-- Outcome of a save-family operation: which write was handed to the
store (full `set` or partial `update` with its payload), a silent no-op
return, or a structured error (missing reference, or a `beforeSave`
throw, the caller-defined validation failure). -/
inductive SaveResult : Type where
  | setWrite : FSObj → SaveResult
  | updateWrite : FSObj → SaveResult
  | noop : SaveResult
  | errNoRef : SaveResult
  | errValidation : SaveResult

/-- Model of `set` (document.ts): missing-reference check, optional
whole-data replacement via `setData` with the full-overwrite flag, the
`beforeSave` hook (`hookOk = false` models a throwing override), full
serialization, the store write, then `afterSave`. -/
def setOp (s : DocState) (newData : Option FSObj) (hookOk : Bool) :
    DocState × SaveResult :=
  if !s.hasRef then (s, .errNoRef)
  else
    let s1 := match newData with
      | some d => (setData s d true).1
      | none => s
    if !hookOk then (s1, .errValidation)
    else
      let payload := serialize s1.data none
      (afterSave s1, .setWrite payload)

/-- Model of `update` (document.ts): silent return when no reference is
set or the ledger is empty, then the `beforeSave` hook, the
ledger-restricted serialization, the store write, then `afterSave`. -/
def updateOp (s : DocState) (hookOk : Bool) : DocState × SaveResult :=
  if !s.hasRef then (s, .noop)
  else if s.updated.isEmpty then (s, .noop)
  else if !hookOk then (s, .errValidation)
  else
    let payload := serialize s.data (some s.updated)
    (afterSave s, .updateWrite payload)

/-- Model of `save` (document.ts): missing-reference check, then
dispatch — `update` when the document exists, `force` is false and no
full overwrite is pending, `set` (without a data argument) otherwise. -/
def save (s : DocState) (force : Bool) (hookOk : Bool) : DocState × SaveResult :=
  if !s.hasRef then (s, .errNoRef)
  else if s.exist && !force && !s.updatedAll then updateOp s hookOk
  else setOp s none hookOk

/-- Model of `setDataFromSnapshot` (document.ts).  The remote snapshot is
`none` when the document was not found, `some raw` with the raw store
fields otherwise.  Sets `_exist` from the snapshot; on not-found resets
the data to the class default via `setData` (with its default
`updatedAll = true`); on found keeps the reference and replaces the data
with the unserialized snapshot fields via `setData` with
`updatedAll = false`. -/
def setDataFromSnapshot (s : DocState) (snap : Option FSObj)
    (defaultData : FSObj) : DocState :=
  match snap with
  | none =>
      let s1 := { s with exist := false }
      (setData s1 defaultData true).1
  | some raw =>
      let s1 := { s with exist := true }
      (setData s1 (unserializeObject raw) false).1

/-- Outcome of `get`. -/
inductive GetResult : Type where
  | cached : GetResult
  | errNoRef : GetResult
  | ok : GetResult

/-- Model of `get` (document.ts): cache short-circuit first, then the
missing-reference check, then the snapshot read (`snap` is what the store
returns), `setDataFromSnapshot`, and `_isLoaded = true`. -/
def getOp (s : DocState) (snap : Option FSObj) (defaultData : FSObj)
    (cache : Bool) : DocState × GetResult :=
  if cache && s.isLoaded then (s, .cached)
  else if !s.hasRef then (s, .errNoRef)
  else ({ setDataFromSnapshot s snap defaultData with isLoaded := true }, .ok)

/-- Outcome of `delete`: structured error, silent no-op, or a remote
delete that was issued and either resolved or rejected (`remoteOk`). -/
inductive DeleteResult : Type where
  | errNoRef : DeleteResult
  | noop : DeleteResult
  | issued : Bool → DeleteResult

/-- Model of `delete` (document.ts): missing-reference check, no-op when
not believed to exist, otherwise `_exist` is set to false and only then
the remote delete is issued; nothing runs after the await, so the local
state is the same whether the remote call resolves or rejects
(`remoteOk` only tags the outcome). -/
def deleteOp (s : DocState) (remoteOk : Bool) : DocState × DeleteResult :=
  if !s.hasRef then (s, .errNoRef)
  else if !s.exist then (s, .noop)
  else ({ s with exist := false }, .issued remoteOk)

/-- Outcome of a document `watch`. -/
inductive WatchResult : Type where
  | errNoRef : WatchResult
  | ok : WatchResult

/-- Model of the document `watch` (document.ts): missing-reference check,
then `unwatch()` cancels any prior listener and a fresh listener is
installed — a second `watch` call replaces the first, it does not
raise. -/
def watchDoc (s : DocState) : DocState × WatchResult :=
  if !s.hasRef then (s, .errNoRef)
  else ({ s with watching := true }, .ok)

/-- State of a `FirestoreCollection` relevant to its watch lifecycle:
whether a query is initialized and whether a listener is active. -/
structure CollState where
  hasQuery : Bool
  watching : Bool

/-- Outcome of a collection `watch`. -/
inductive CollWatchResult : Type where
  | noQuery : CollWatchResult
  | errAlreadyWatching : CollWatchResult
  | ok : CollWatchResult

/-- Model of the collection `watch` (web/collection.ts): silent return
when no query is initialized, a structured `watch is already called`
error when a listener is active, otherwise installs the listener. -/
def watchColl (c : CollState) : CollState × CollWatchResult :=
  if !c.hasQuery then (c, .noQuery)
  else if c.watching then (c, .errAlreadyWatching)
  else ({ c with watching := true }, .ok)

/-- State of an `AsyncQueue` (src/shared/async-queue.ts): the buffered
item backlog and the queue of waiting consumers (identified by tokens) in
arrival order. -/
structure AsyncQueue (T : Type) where
  queue : List T
  resolvers : List Nat

/-- Model of `enqueue`: when a consumer is waiting, hands the item to the
oldest waiter (returned as `some (waiter, item)`); otherwise appends the
item to the backlog. -/
def enqueue {T : Type} (q : AsyncQueue T) (item : T) :
    AsyncQueue T × Option (Nat × T) :=
  match q.resolvers with
  | r :: rest => ({ q with resolvers := rest }, some (r, item))
  | [] => ({ q with queue := q.queue ++ [item] }, none)

/-- Model of `dequeue`: when the backlog is non-empty, pops and returns
the oldest item immediately; otherwise registers the consumer `cid` as a
waiter and suspends (returns `none`). -/
def dequeue {T : Type} (q : AsyncQueue T) (cid : Nat) :
    AsyncQueue T × Option T :=
  match q.queue with
  | x :: rest => ({ q with queue := rest }, some x)
  | [] => ({ q with resolvers := q.resolvers ++ [cid] }, none)

/-- Sequential enqueue of a list of items. -/
def enqueueAll {T : Type} (q : AsyncQueue T) (xs : List T) : AsyncQueue T :=
  xs.foldl (fun acc x => (enqueue acc x).1) q

/-- Performs `n` sequential dequeues and collects the immediately
delivered items in order. -/
def drain {T : Type} (q : AsyncQueue T) : Nat → List T
  | 0 => []
  | n + 1 =>
      match dequeue q 0 with
      | (q1, some x) => x :: drain q1 n
      | (q1, none) => drain q1 n

/-- Applies a sequence of tracked field writes through the data-accessor
proxy (each funnels into `setValue`). -/
def applyWrites (s : DocState) (ws : List (String × FSValue)) : DocState :=
  ws.foldl (fun st p => setValue st p.1 p.2) s

/-- The last value written to key `k` in a write sequence, if any. -/
def lastVal : List (String × FSValue) → String → Option FSValue
  | [], _ => none
  | p :: tl, k =>
      match lastVal tl k with
      | some v => some v
      | none => if p.1 = k then some p.2 else none

/-- First-occurrence deduplication of a key sequence, excluding keys
already seen: the order in which fresh keys enter the ledger. -/
def firstKeysAux : List String → List String → List String
  | [], _ => []
  | k :: tl, seen =>
      if seen.any (fun k2 => k2 = k) then firstKeysAux tl seen
      else k :: firstKeysAux tl (k :: seen)

/-- First-occurrence deduplication of a key sequence. -/
def firstKeys (ks : List String) : List String :=
  firstKeysAux ks []

/-- Whether an object has pairwise distinct keys (always true for objects
that arose from actual JS objects). -/
def keysUnique : FSObj → Bool
  | .nil => true
  | .cons k _ tl => !(tl.has k) && keysUnique tl

/-- Whether no top-level field of an object holds the delete sentinel. -/
def noDeleteTop : FSObj → Bool
  | .nil => true
  | .cons _ v tl => !(v.isDeleteF) && noDeleteTop tl

/-- Example data object `{ a: 1 }`. -/
def exData1 : FSObj := .cons "a" (.vInt 1) .nil

/-- Example: a clean, loaded, existing document with data `{ a: 1 }` and
a resolved reference. -/
def exDocClean : DocState :=
  { hasRef := true, data := exData1, exist := true, isLoaded := true,
    updated := [], updatedAll := false, watching := false }

/-- Example: an existing, never-loaded document with empty data and a
resolved reference. -/
def exDocEmpty : DocState :=
  { hasRef := true, data := .nil, exist := true, isLoaded := false,
    updated := [], updatedAll := false, watching := false }

/-- Example: an existing document with data `{ a: 1 }`, a pending ledger
entry for `a` (prior value 0) and no full-overwrite flag. -/
def exDocDirty : DocState :=
  { hasRef := true, data := exData1, exist := true, isLoaded := true,
    updated := [("a", .vInt 0)], updatedAll := false, watching := false }

/-- Example: a document with a resolved reference and an active snapshot
listener. -/
def exDocWatching : DocState :=
  { hasRef := true, data := .nil, exist := true, isLoaded := true,
    updated := [], updatedAll := false, watching := true }

/-- Example: a document with no reference established, with a pending
ledger entry. -/
def exDocNoRef : DocState :=
  { hasRef := false, data := exData1, exist := true, isLoaded := false,
    updated := [("a", .vInt 0)], updatedAll := false, watching := false }

/-- Example: a clean existing document whose data is `{ a: 7 }`. -/
def exDocSeven : DocState :=
  { hasRef := true, data := .cons "a" (.vInt 7) .nil, exist := true,
    isLoaded := true, updated := [], updatedAll := false, watching := false }

theorem get_set_self : ∀ (o : FSObj) (k : String) (v : FSValue),
    (o.set k v).get k = v
  | .nil, k, v => by simp [FSObj.set, FSObj.get]
  | .cons k1 v1 tl, k, v => by
      by_cases h : k1 = k
      · simp [FSObj.set, FSObj.get, h]
      · simp [FSObj.set, FSObj.get, h, get_set_self tl k v]

theorem get_set_other : ∀ (o : FSObj) (k k2 : String) (v : FSValue),
    k ≠ k2 → (o.set k v).get k2 = o.get k2
  | .nil, k, k2, v, h => by simp [FSObj.set, FSObj.get, h]
  | .cons k1 v1 tl, k, k2, v, h => by
      by_cases h1 : k1 = k
      · subst h1; simp [FSObj.set, FSObj.get, h]
      · by_cases h2 : k1 = k2
        · subst h2; simp [FSObj.set, FSObj.get, h1]
        · simp [FSObj.set, FSObj.get, h1, h2, get_set_other tl k k2 v h]

theorem has_set : ∀ (o : FSObj) (k k2 : String) (v : FSValue),
    (o.set k v).has k2 = (decide (k = k2) || o.has k2)
  | .nil, k, k2, v => by simp [FSObj.set, FSObj.has]
  | .cons k1 v1 tl, k, k2, v => by
      by_cases h1 : k1 = k
      · subst h1; by_cases h2 : k1 = k2 <;> simp [FSObj.set, FSObj.has, h2]
      · by_cases h2 : k1 = k2
        · subst h2; simp [FSObj.set, FSObj.has, h1]
        · simp [FSObj.set, FSObj.has, h1, h2, has_set tl k k2 v]

theorem has_erase_self : ∀ (o : FSObj) (k : String), (o.erase k).has k = false
  | .nil, k => by simp [FSObj.erase, FSObj.has]
  | .cons k1 v1 tl, k => by
      by_cases h : k1 = k
      · simp [FSObj.erase, h, has_erase_self tl k]
      · simp [FSObj.erase, FSObj.has, h, has_erase_self tl k]

theorem has_erase_mono : ∀ (o : FSObj) (k k2 : String),
    o.has k = false → (o.erase k2).has k = false
  | .nil, k, k2, _ => by simp [FSObj.erase, FSObj.has]
  | .cons k1 v1 tl, k, k2, h => by
      simp only [FSObj.has] at h
      by_cases h1 : k1 = k
      · simp [h1] at h
      · simp only [h1, if_false] at h
        by_cases h2 : k1 = k2
        · simp [FSObj.erase, h2, has_erase_mono tl k k2 h]
        · simp [FSObj.erase, FSObj.has, h1, h2, has_erase_mono tl k k2 h]

theorem serializeObject_has_false : ∀ (o : FSObj) (k : String),
    o.has k = false → (serializeObject o).has k = false
  | .nil, k, _ => by simp [serializeObject, FSObj.has]
  | .cons k1 v1 tl, k, h => by
      simp only [FSObj.has] at h
      by_cases h1 : k1 = k
      · simp [h1] at h
      · simp only [h1, if_false] at h
        simp only [serializeObject]
        split
        · exact serializeObject_has_false tl k h
        · simp [FSObj.has, h1, serializeObject_has_false tl k h]

theorem ledgerHas_isEmpty_false (l : Ledger) (k : String)
    (h : ledgerHas l k = true) : l.isEmpty = false := by
  cases l with
  | nil => simp [ledgerHas] at h
  | cons p tl => simp

theorem ledgerGet_cons (p : String × FSValue) (tl : Ledger) (k : String) :
    ledgerGet (p :: tl) k = if p.1 = k then some p.2 else ledgerGet tl k := rfl

theorem ledgerHas_cons (p : String × FSValue) (tl : Ledger) (k : String) :
    ledgerHas (p :: tl) k = (decide (p.1 = k) || ledgerHas tl k) := by
  simp [ledgerHas]

theorem ledgerGet_append_left (l l2 : Ledger) (k : String) (w : FSValue)
    (h : ledgerGet l k = some w) : ledgerGet (l ++ l2) k = some w := by
  induction l with
  | nil => simp [ledgerGet] at h
  | cons p tl ih =>
      rw [List.cons_append, ledgerGet_cons]
      rw [ledgerGet_cons] at h
      by_cases h1 : p.1 = k
      · rw [if_pos h1] at h ⊢; exact h
      · rw [if_neg h1] at h ⊢; exact ih h

theorem ledgerGet_append_self (l : Ledger) (k : String) (w : FSValue)
    (h : ledgerHas l k = false) : ledgerGet (l ++ [(k, w)]) k = some w := by
  induction l with
  | nil => simp [ledgerGet]
  | cons p tl ih =>
      rw [ledgerHas_cons, Bool.or_eq_false_iff] at h
      have h1 : p.1 ≠ k := by simpa using h.1
      rw [List.cons_append, ledgerGet_cons, if_neg h1]
      exact ih h.2

/-- Structural description of the ledger after one tracked write: the
first write of a dirty period appends the prior value (the sentinel
special-cased to `undefined`), later writes leave the ledger alone. -/
theorem setValue_updated (s : DocState) (k : String) (v : FSValue) :
    (setValue s k v).updated =
      (if ledgerHas s.updated k then s.updated
       else s.updated ++
         [(k, if (s.data.get k).isDeleteF then FSValue.undef else s.data.get k)]) := by
  by_cases hl : ledgerHas s.updated k <;>
    by_cases hd : (s.data.get k).isDeleteF <;>
    by_cases hu : v.isUndef <;>
    by_cases hh : s.data.has k <;>
    by_cases he : s.exist <;>
    simp [setValue, hl, hd, hu, hh, he]

/-- A tracked write leaves every flag except the data untouched. -/
theorem setValue_meta (s : DocState) (k : String) (v : FSValue) :
    (setValue s k v).hasRef = s.hasRef ∧ (setValue s k v).exist = s.exist ∧
    (setValue s k v).updatedAll = s.updatedAll ∧
    (setValue s k v).isLoaded = s.isLoaded ∧
    (setValue s k v).watching = s.watching := by
  by_cases hl : ledgerHas s.updated k <;>
    by_cases hd : (s.data.get k).isDeleteF <;>
    by_cases hu : v.isUndef <;>
    by_cases hh : s.data.has k <;>
    by_cases he : s.exist <;>
    simp [setValue, hl, hd, hu, hh, he]

/-- A tracked write of a defined value stores it via property write. -/
theorem setValue_data_def (s : DocState) (k : String) (v : FSValue)
    (hv : v.isUndef = false) : (setValue s k v).data = s.data.set k v := by
  by_cases hl : ledgerHas s.updated k <;>
    by_cases hd : (s.data.get k).isDeleteF <;>
    simp [setValue, hl, hd, hv]

/-- A tracked deletion on a present key of an existing document stores
the delete sentinel. -/
theorem setValue_data_undef_exist (s : DocState) (k : String)
    (hex : s.exist = true) (hk : s.data.has k = true) :
    (setValue s k FSValue.undef).data = s.data.set k FSValue.deleteF := by
  by_cases hl : ledgerHas s.updated k <;>
    by_cases hd : (s.data.get k).isDeleteF <;>
    simp [setValue, hl, hd, hk, hex, FSValue.isUndef]

/-- A tracked deletion on a present key of a new document removes the
key outright. -/
theorem setValue_data_undef_new (s : DocState) (k : String)
    (hex : s.exist = false) (hk : s.data.has k = true) :
    (setValue s k FSValue.undef).data = s.data.erase k := by
  by_cases hl : ledgerHas s.updated k <;>
    by_cases hd : (s.data.get k).isDeleteF <;>
    simp [setValue, hl, hd, hk, hex, FSValue.isUndef]

/-- After a tracked write to `k`, the ledger has an entry for `k`. -/
theorem setValue_ledger_has_self (s : DocState) (k : String) (v : FSValue) :
    ledgerHas (setValue s k v).updated k = true := by
  rw [setValue_updated]
  split
  · assumption
  · simp [ledgerHas, List.any_append]

theorem setData_tracking (s : DocState) (d : FSObj) (u : Bool) :
    (setData s d u).1.updated = [] ∧ (setData s d u).1.updatedAll = u ∧
    (setData s d u).1.exist = s.exist ∧ (setData s d u).1.hasRef = s.hasRef := by
  unfold setData
  split <;> simp

theorem enqueueAll_backlog {T : Type} (xs : List T) :
    ∀ acc : List T, enqueueAll ⟨acc, []⟩ xs = ⟨acc ++ xs, []⟩ := by
  induction xs with
  | nil => intro acc; simp [enqueueAll]
  | cons x tl ih =>
      intro acc
      have h1 : (enqueue (⟨acc, []⟩ : AsyncQueue T) x).1 = ⟨acc ++ [x], []⟩ := rfl
      simp only [enqueueAll, List.foldl_cons, h1]
      have h2 := ih (acc ++ [x])
      simp only [enqueueAll] at h2
      rw [h2]
      simp

theorem drain_full {T : Type} (xs : List T) :
    ∀ rs : List Nat, drain ⟨xs, rs⟩ xs.length = xs := by
  induction xs with
  | nil => intro rs; simp [drain]
  | cons x tl ih =>
      intro rs
      show drain ⟨x :: tl, rs⟩ (tl.length + 1) = x :: tl
      simp only [drain, dequeue]
      rw [ih rs]

/-- C9: the rendezvous queue hands an enqueued item to an immediately
following dequeue (backlog path); a dequeue on an empty backlog registers
the consumer as a waiter, and an enqueue with waiters present hands the
item to the oldest waiter; n sequential enqueues followed by n dequeues
deliver the items in FIFO order. -/
theorem c9_async_queue_fifo {T : Type} :
    (∀ (q : AsyncQueue T) (x : T), q.queue = [] → q.resolvers = [] →
        (dequeue (enqueue q x).1 0).2 = some x) ∧
    (∀ (q : AsyncQueue T) (cid : Nat), q.queue = [] →
        dequeue q cid = ({ q with resolvers := q.resolvers ++ [cid] }, none)) ∧
    (∀ (q : AsyncQueue T) (x : T) (r : Nat) (rest : List Nat),
        q.resolvers = r :: rest →
        enqueue q x = ({ q with resolvers := rest }, some (r, x))) ∧
    (∀ xs : List T, drain (enqueueAll ⟨[], []⟩ xs) xs.length = xs) := by
  refine ⟨?_, ?_, ?_, ?_⟩
  · rintro ⟨qu, rs⟩ x h1 h2
    subst h1; subst h2
    rfl
  · rintro ⟨qu, rs⟩ cid h1
    subst h1
    rfl
  · rintro ⟨qu, rs⟩ x r rest h1
    subst h1
    rfl
  · intro xs
    rw [enqueueAll_backlog xs []]
    simpa using drain_full xs []

/-- Witness for C9 at concrete inputs. -/
theorem c9_async_queue_fifo_witness :
    (dequeue (enqueue (⟨[], []⟩ : AsyncQueue Nat) 5).1 0).2 = some 5 ∧
    dequeue (⟨[], [7]⟩ : AsyncQueue Nat) 3 = (⟨[], [7, 3]⟩, none) ∧
    enqueue (⟨[], [7]⟩ : AsyncQueue Nat) 5 = (⟨[], []⟩, some (7, 5)) ∧
    drain (enqueueAll (⟨[], []⟩ : AsyncQueue Nat) [1, 2, 3]) 3 = [1, 2, 3] := by
  obtain ⟨h1, h2, h3, h4⟩ := @c9_async_queue_fifo Nat
  refine ⟨h1 ⟨[], []⟩ 5 rfl rfl, ?_, ?_, ?_⟩
  · have := h2 ⟨[], [7]⟩ 3 rfl
    simpa using this
  · have := h3 ⟨[], [7]⟩ 5 7 [] rfl
    simpa using this
  · have := h4 [1, 2, 3]
    simpa using this

/-- C10: with a resolved reference and exists=true, delete() flips the
local exists flag to false before the remote delete is issued; the local
state is the same whether the remote call resolves or rejects, the data
is untouched, and an immediately retried delete() is a silent no-op that
issues no remote call. -/
theorem c10_delete_flag_first (s : DocState) (remoteOk : Bool)
    (href : s.hasRef = true) (hex : s.exist = true) :
    deleteOp s remoteOk = ({ s with exist := false }, .issued remoteOk) ∧
    ({ s with exist := false } : DocState).data = s.data ∧
    (∀ r2 : Bool, deleteOp { s with exist := false } r2 =
        ({ s with exist := false }, .noop)) := by
  refine ⟨?_, rfl, ?_⟩
  · simp [deleteOp, href, hex]
  · intro r2; simp [deleteOp, href]

/-- Witness for C10 at a concrete document. -/
theorem c10_delete_flag_first_witness :
    deleteOp exDocClean false = ({ exDocClean with exist := false }, .issued false) ∧
    ({ exDocClean with exist := false } : DocState).data = exDocClean.data ∧
    (∀ r2 : Bool, deleteOp { exDocClean with exist := false } r2 =
        ({ exDocClean with exist := false }, .noop)) :=
  c10_delete_flag_first exDocClean false rfl rfl

/-- C7 counterexample: the single-document watch does not raise an
already-watching error — on a document with an active listener (and a
resolved reference) a second watch() call succeeds, cancelling and
replacing the prior listener, contrary to the claim that the document
component hard-errors like the collection component. -/
theorem c7_watch_cex :
    exDocWatching.watching = true ∧
    watchDoc exDocWatching = (exDocWatching, .ok) := ⟨rfl, rfl⟩

/-- C7 amended: the collection watch raises the structured
already-watching error when a listener is active, but the document watch
never does — with a resolved reference it always cancels any prior
listener and installs the new one, succeeding. -/
theorem c7_watch_amended :
    (∀ c : CollState, c.hasQuery = true → c.watching = true →
        watchColl c = (c, .errAlreadyWatching)) ∧
    (∀ s : DocState, s.hasRef = true →
        watchDoc s = ({ s with watching := true }, .ok)) := by
  constructor
  · intro c h1 h2
    simp [watchColl, h1, h2]
  · intro s h
    simp [watchDoc, h]

/-- Witness for the amended C7 at concrete states. -/
theorem c7_watch_amended_witness :
    watchColl ⟨true, true⟩ = (⟨true, true⟩, .errAlreadyWatching) ∧
    watchDoc exDocWatching = ({ exDocWatching with watching := true }, .ok) :=
  ⟨c7_watch_amended.1 ⟨true, true⟩ rfl rfl, c7_watch_amended.2 exDocWatching rfl⟩

/-- C8 counterexample: update() invoked on a document with no reference
established returns silently as a no-op — even with a pending ledger
entry — rather than failing with the structured missing-reference error
the claim asserts for all five operations. -/
theorem c8_noref_update_cex :
    exDocNoRef.hasRef = false ∧ exDocNoRef.updated ≠ [] ∧
    updateOp exDocNoRef true = (exDocNoRef, .noop) := by
  refine ⟨rfl, ?_, rfl⟩
  simp [exDocNoRef]

/-- C8 amended: with no reference established, get, set, delete, watch
and save all fail with the structured missing-reference error, but
update returns silently as a no-op (its caller-visible contract is
honored through save, which does throw). -/
theorem c8_noref_amended (s : DocState) (h : s.hasRef = false) :
    (∀ (snap : Option FSObj) (dd : FSObj),
        getOp s snap dd false = (s, .errNoRef)) ∧
    (∀ (nd : Option FSObj) (hook : Bool), setOp s nd hook = (s, .errNoRef)) ∧
    (∀ rok : Bool, deleteOp s rok = (s, .errNoRef)) ∧
    watchDoc s = (s, .errNoRef) ∧
    (∀ (f hook : Bool), save s f hook = (s, .errNoRef)) ∧
    (∀ hook : Bool, updateOp s hook = (s, .noop)) := by
  refine ⟨?_, ?_, ?_, ?_, ?_, ?_⟩ <;>
    simp [getOp, setOp, deleteOp, watchDoc, save, updateOp, h]

/-- Witness for the amended C8 at a concrete unreferenced document. -/
theorem c8_noref_amended_witness :
    getOp exDocNoRef none .nil false = (exDocNoRef, .errNoRef) ∧
    setOp exDocNoRef none true = (exDocNoRef, .errNoRef) ∧
    deleteOp exDocNoRef true = (exDocNoRef, .errNoRef) ∧
    watchDoc exDocNoRef = (exDocNoRef, .errNoRef) ∧
    save exDocNoRef false true = (exDocNoRef, .errNoRef) ∧
    updateOp exDocNoRef true = (exDocNoRef, .noop) := by
  obtain ⟨h1, h2, h3, h4, h5, h6⟩ := c8_noref_amended exDocNoRef rfl
  exact ⟨h1 none .nil, h2 none true, h3 true, h4, h5 false true, h6 true⟩

/-- C5 counterexample: replacing the whole object via setData with a
deep-structurally equal object does mark the document dirty when the
updatedAll argument is true (the call form used by set and by the
constructor of a new document): starting from a clean document, the
full-overwrite flag is set even though the incoming object is deep-equal
to the current data. -/
theorem c5_setdata_equal_cex :
    deepEqualObj exData1 exDocClean.data = true ∧
    isDirty exDocClean = false ∧
    isDirty (setData exDocClean exData1 true).1 = true := ⟨rfl, rfl, rfl⟩

/-- C5 amended: a tracked field write always marks the document dirty,
independent of value equality (first half of the claim, which holds);
setData clears the ledger and sets the full-overwrite flag to its
updatedAll argument regardless of deep equality — deep equality controls
only whether the data object is replaced and which boolean is returned,
so a deep-equal setData leaves the document not dirty exactly when
updatedAll is false (the reload path). -/
theorem c5_dirty_semantics :
    (∀ (s : DocState) (k : String) (v : FSValue),
        isDirty (setValue s k v) = true) ∧
    (∀ (s : DocState) (d : FSObj) (u : Bool),
        (setData s d u).1.updated = [] ∧ (setData s d u).1.updatedAll = u) ∧
    (∀ (s : DocState) (d : FSObj) (u : Bool), deepEqualObj d s.data = true →
        setData s d u = ({ s with updated := [], updatedAll := u }, false)) := by
  refine ⟨?_, ?_, ?_⟩
  · intro s k v
    have h1 := setValue_ledger_has_self s k v
    have h2 := ledgerHas_isEmpty_false _ k h1
    simp [isDirty, h2]
  · intro s d u
    exact ⟨(setData_tracking s d u).1, (setData_tracking s d u).2.1⟩
  · intro s d u h
    simp [setData, h]

/-- Witness for the amended C5 at concrete states. -/
theorem c5_dirty_semantics_witness :
    isDirty (setValue exDocClean "a" (.vInt 1)) = true ∧
    (setData exDocClean exData1 false).1.updated = [] ∧
    (setData exDocClean exData1 false).1.updatedAll = false ∧
    setData exDocClean exData1 false =
      ({ exDocClean with updated := [], updatedAll := false }, false) := by
  obtain ⟨h1, h2, h3⟩ := c5_dirty_semantics
  exact ⟨h1 exDocClean "a" (.vInt 1), (h2 exDocClean exData1 false).1,
    (h2 exDocClean exData1 false).2, h3 exDocClean exData1 false rfl⟩

/-- C6 counterexample: when set() is invoked with a data argument and the
beforeSave hook throws, the ledger and the full-overwrite flag are NOT
left as they were at invocation: the data replacement runs before the
hook, clearing the ledger and setting the full-overwrite flag, contrary
to the claim that they are left exactly as they were. -/
theorem c6_set_hook_cex :
    exDocDirty.updatedAll = false ∧ exDocDirty.updated = [("a", .vInt 0)] ∧
    (setOp exDocDirty (some (.cons "a" (.vInt 2) .nil)) false).2 =
      .errValidation ∧
    (setOp exDocDirty (some (.cons "a" (.vInt 2) .nil)) false).1.updatedAll =
      true ∧
    (setOp exDocDirty (some (.cons "a" (.vInt 2) .nil)) false).1.updated =
      [] := ⟨rfl, rfl, rfl, rfl, rfl⟩

/-- C6 amended: a beforeSave throw always aborts before any write is
issued; for update() and for set() invoked without a data argument the
whole state (ledger and full-overwrite flag included) is left exactly as
at invocation, while set(data) first replaces the local data and resets
tracking (ledger cleared, full-overwrite flag set) and that replacement
persists after the throw. -/
theorem c6_hook_abort (s : DocState) (href : s.hasRef = true) :
    setOp s none false = (s, .errValidation) ∧
    (s.updated.isEmpty = false → updateOp s false = (s, .errValidation)) ∧
    (∀ d : FSObj, setOp s (some d) false =
        ((setData s d true).1, .errValidation)) := by
  refine ⟨?_, ?_, ?_⟩
  · simp [setOp, href]
  · intro h
    simp [updateOp, href, h]
  · intro d
    simp [setOp, href]

/-- Witness for the amended C6 at a concrete dirty document. -/
theorem c6_hook_abort_witness :
    setOp exDocDirty none false = (exDocDirty, .errValidation) ∧
    updateOp exDocDirty false = (exDocDirty, .errValidation) ∧
    setOp exDocDirty (some exData1) false =
      ((setData exDocDirty exData1 true).1, .errValidation) := by
  obtain ⟨h1, h2, h3⟩ := c6_hook_abort exDocDirty rfl
  exact ⟨h1, h2 rfl, h3 exData1⟩

/-- C4 counterexample: after get() resolves on a document that was not
found remotely, the document IS dirty — setDataFromSnapshot resets the
data to the class default through setData with its default
updatedAll=true, so the full-overwrite flag is set, contrary to the
claim that isDirty is false including in the not-found case. -/
theorem c4_get_notfound_cex :
    (getOp exDocEmpty none .nil false).2 = .ok ∧
    isDirty (getOp exDocEmpty none .nil false).1 = true := ⟨rfl, rfl⟩

theorem setValue_ledger_mono (s : DocState) (k2 : String) (v2 : FSValue)
    (k : String) (w : FSValue) (h : ledgerGet s.updated k = some w) :
    ledgerGet (setValue s k2 v2).updated k = some w := by
  rw [setValue_updated]
  split
  · exact h
  · exact ledgerGet_append_left _ _ _ _ h

theorem applyWrites_ledger_mono : ∀ (ws : List (String × FSValue))
    (s : DocState) (k : String) (w : FSValue),
    ledgerGet s.updated k = some w →
    ledgerGet (applyWrites s ws).updated k = some w
  | [], _, _, _, h => h
  | p :: tl, s, k, w, h =>
      applyWrites_ledger_mono tl (setValue s p.1 p.2) k w
        (setValue_ledger_mono s p.1 p.2 k w h)

/-- C2: for a key not yet in the ledger, the first tracked write records
as its prior value the value data[k] held just before that write (with
the delete sentinel special-cased to undefined), and any sequence of
later tracked writes — to k or to other fields — leaves that recorded
prior value untouched. -/
theorem c2_ledger_first_prior (s : DocState) (k : String) (v1 : FSValue)
    (ws : List (String × FSValue)) (h : ledgerHas s.updated k = false) :
    ledgerGet (applyWrites (setValue s k v1) ws).updated k =
      some (if (s.data.get k).isDeleteF then FSValue.undef
            else s.data.get k) := by
  apply applyWrites_ledger_mono
  rw [setValue_updated, if_neg (by simp [h])]
  exact ledgerGet_append_self s.updated k _ h

/-- Witness for C2: data {a: 7}, writes a=8, a=9, b=null; the ledger
still records 7 as the prior value of a. -/
theorem c2_ledger_first_prior_witness :
    ledgerGet (applyWrites (setValue exDocSeven "a" (.vInt 8))
        [("a", .vInt 9), ("b", .vNull)]).updated "a" = some (.vInt 7) := by
  have h := c2_ledger_first_prior exDocSeven "a" (.vInt 8)
    [("a", .vInt 9), ("b", .vNull)] rfl
  exact h

theorem serializeUpdated_get : ∀ (data : FSObj) (upd : Ledger) (k : String),
    ledgerHas upd k = true → (serializeValue (data.get k)).isUndef = false →
    (serializeUpdated data upd).get k = serializeValue (data.get k)
  | _, [], k, hmem, _ => by simp [ledgerHas] at hmem
  | data, (k1, w) :: tl, k, hmem, hnu => by
      by_cases hpk : k1 = k
      · subst hpk
        simp only [serializeUpdated]
        simp [FSObj.get, hnu]
      · have hmem2 : ledgerHas tl k = true := by
          rw [ledgerHas_cons] at hmem
          simpa [hpk] using hmem
        simp only [serializeUpdated]
        split
        · exact serializeUpdated_get data tl k hmem2 hnu
        · simp [FSObj.get, hpk, serializeUpdated_get data tl k hmem2 hnu]

/-- C3: deleting a present field on an existing document stores the
delete sentinel in data[k] and the next update() payload maps k to the
sentinel; deleting a present field on a new (exists=false) document
removes k from data outright and k is absent from the payload of the
next save() entirely. -/
theorem c3_field_deletion (s : DocState) (k : String)
    (href : s.hasRef = true) (hk : s.data.has k = true) :
    (s.exist = true →
       (setValue s k .undef).data.get k = .deleteF ∧
       ∃ payload : FSObj,
         updateOp (setValue s k .undef) true =
           (afterSave (setValue s k .undef), .updateWrite payload) ∧
         payload.get k = .deleteF) ∧
    (s.exist = false →
       (setValue s k .undef).data.has k = false ∧
       ∃ payload : FSObj,
         save (setValue s k .undef) false true =
           (afterSave (setValue s k .undef), .setWrite payload) ∧
         payload.has k = false) := by
  constructor
  · intro hex
    have hdata := setValue_data_undef_exist s k hex hk
    have hget : (setValue s k .undef).data.get k = .deleteF := by
      rw [hdata]; exact get_set_self _ _ _
    refine ⟨hget,
      serializeUpdated (setValue s k .undef).data (setValue s k .undef).updated,
      ?_, ?_⟩
    · have h1 : (setValue s k .undef).hasRef = true := by
        rw [(setValue_meta s k _).1]; exact href
      have h2 : (setValue s k .undef).updated.isEmpty = false :=
        ledgerHas_isEmpty_false _ k (setValue_ledger_has_self s k _)
      simp [updateOp, h1, h2, serialize]
    · have hnu : (serializeValue ((setValue s k .undef).data.get k)).isUndef
          = false := by rw [hget]; rfl
      rw [serializeUpdated_get _ _ k (setValue_ledger_has_self s k _) hnu,
        hget]
      rfl
  · intro hex
    have hdata := setValue_data_undef_new s k hex hk
    have hhas : (setValue s k .undef).data.has k = false := by
      rw [hdata]; exact has_erase_self _ _
    refine ⟨hhas,
      serializeObject ((setValue s k .undef).data.erase "_id"), ?_, ?_⟩
    · have h1 : (setValue s k .undef).hasRef = true := by
        rw [(setValue_meta s k _).1]; exact href
      have h2 : (setValue s k .undef).exist = false := by
        rw [(setValue_meta s k _).2.1]; exact hex
      simp [save, setOp, h1, h2, serialize]
    · exact serializeObject_has_false _ k (has_erase_mono _ _ _ hhas)

/-- Witness for C3 at the existing-document branch with data {a: 7}. -/
theorem c3_field_deletion_witness :
    (setValue exDocSeven "a" .undef).data.get "a" = .deleteF ∧
    ∃ payload : FSObj,
      updateOp (setValue exDocSeven "a" .undef) true =
        (afterSave (setValue exDocSeven "a" .undef), .updateWrite payload) ∧
      payload.get "a" = .deleteF :=
  (c3_field_deletion exDocSeven "a" rfl rfl).1 rfl

theorem has_cons (k k2 : String) (v : FSValue) (tl : FSObj) :
    (FSObj.cons k v tl).has k2 = (decide (k = k2) || tl.has k2) := by
  by_cases h : k = k2 <;> simp [FSObj.has, h]

theorem append_nil_obj : ∀ o : FSObj, o.append .nil = o
  | .nil => rfl
  | .cons k v tl => by rw [FSObj.append, append_nil_obj tl]

theorem append_assoc_obj : ∀ a b c : FSObj,
    (a.append b).append c = a.append (b.append c)
  | .nil, _, _ => rfl
  | .cons k v tl, b, c => by
      rw [FSObj.append, FSObj.append, append_assoc_obj tl b c]
      rfl

theorem set_absent : ∀ (o : FSObj) (k : String) (v : FSValue),
    o.has k = false → o.set k v = o.append (.cons k v .nil)
  | .nil, _, _, _ => rfl
  | .cons k1 v1 tl, k, v, h => by
      rw [has_cons, Bool.or_eq_false_iff] at h
      have h1 : k1 ≠ k := by simpa using h.1
      rw [FSObj.set, if_neg h1, FSObj.append, set_absent tl k v h.2]

theorem assign_fresh : ∀ (d target : FSObj),
    keysUnique d = true → (∀ k2, d.has k2 = true → target.has k2 = false) →
    target.assign d = target.append d
  | .nil, target, _, _ => (append_nil_obj target).symm
  | .cons k v tl, target, hu, hdisj => by
      rw [show keysUnique (.cons k v tl) = (!(tl.has k) && keysUnique tl)
          from rfl, Bool.and_eq_true, Bool.not_eq_true'] at hu
      have htk : target.has k = false :=
        hdisj k (by simp [FSObj.has])
      have hdisj2 : ∀ k2, tl.has k2 = true → (target.set k v).has k2 = false := by
        intro k2 hk2
        have h1 : target.has k2 = false := by
          refine hdisj k2 ?_
          rw [has_cons, hk2]
          simp
        have h2 : k ≠ k2 := by
          intro he
          rw [he] at hu
          rw [hu.1] at hk2
          exact Bool.noConfusion hk2
        rw [has_set, h1]
        simp [h2]
      calc target.assign (.cons k v tl)
          = (target.set k v).assign tl := rfl
        _ = (target.set k v).append tl := assign_fresh tl _ hu.2 hdisj2
        _ = (target.append (.cons k v .nil)).append tl := by
              rw [set_absent target k v htk]
        _ = target.append (.cons k v tl) := by
              rw [append_assoc_obj]
              rfl

theorem keepOnlyId_nil : ∀ o : FSObj,
    o.has "_id" = false → o.keepOnlyId = .nil
  | .nil, _ => rfl
  | .cons k v tl, h => by
      rw [has_cons, Bool.or_eq_false_iff] at h
      have h1 : k ≠ "_id" := by simpa using h.1
      rw [FSObj.keepOnlyId, if_neg h1]
      exact keepOnlyId_nil tl h.2

theorem convertDeletes_id : ∀ o : FSObj,
    noDeleteTop o = true → o.convertDeletes = o
  | .nil, _ => rfl
  | .cons k v tl, h => by
      rw [show noDeleteTop (.cons k v tl) = (!(v.isDeleteF) && noDeleteTop tl)
          from rfl, Bool.and_eq_true, Bool.not_eq_true'] at h
      rw [FSObj.convertDeletes, if_neg (by simp [h.1]), convertDeletes_id tl h.2]

/-- Data replacement behavior of setData: under a snapshot-shaped
incoming object (unique keys, no top-level delete sentinel) and a current
data object without a synthetic `_id` key, the resulting data is either
literally the incoming object (replacement branch) or unchanged but
deep-equal to it (deep-equal branch). -/
theorem setData_data_eq (s : DocState) (d : FSObj) (u : Bool)
    (hid : s.data.has "_id" = false) (hku : keysUnique d = true)
    (hnd : noDeleteTop d = true) :
    (setData s d u).1.data = d ∨
      (deepEqualObj d s.data = true ∧ (setData s d u).1.data = s.data) := by
  by_cases h : deepEqualObj d s.data = true
  · right
    exact ⟨h, by simp [setData, h]⟩
  · left
    have hb : deepEqualObj d s.data = false := by
      simpa using h
    simp only [setData, hb, Bool.false_eq_true, if_false]
    rw [keepOnlyId_nil s.data hid, convertDeletes_id d hnd]
    rw [assign_fresh d .nil hku (fun _ _ => rfl)]
    rfl

/-- C4 amended: after a successful get() (no cache short-circuit) on a
referenced document, the operation succeeds, isLoaded is true and exists
equals whether the remote document was found; when found, the document
is not dirty and the local data is replaced wholesale by the
deserialized remote state (literally replaced, or left in place when
already deep-equal to it); when not found, the data is reset to the
class default the same way, but the full-overwrite flag is set, so the
document IS dirty. -/
theorem c4_get_amended (s : DocState) (snap : Option FSObj) (dd : FSObj)
    (href : s.hasRef = true) (hid : s.data.has "_id" = false) :
    (getOp s snap dd false).2 = .ok ∧
    (getOp s snap dd false).1.isLoaded = true ∧
    (getOp s snap dd false).1.exist = snap.isSome ∧
    (snap = none →
       (getOp s snap dd false).1.updatedAll = true ∧
       isDirty (getOp s snap dd false).1 = true ∧
       (keysUnique dd = true → noDeleteTop dd = true →
          ((getOp s snap dd false).1.data = dd ∨
           (deepEqualObj dd s.data = true ∧
            (getOp s snap dd false).1.data = s.data)))) ∧
    (∀ raw : FSObj, snap = some raw →
       isDirty (getOp s snap dd false).1 = false ∧
       (keysUnique (unserializeObject raw) = true →
        noDeleteTop (unserializeObject raw) = true →
          ((getOp s snap dd false).1.data = unserializeObject raw ∨
           (deepEqualObj (unserializeObject raw) s.data = true ∧
            (getOp s snap dd false).1.data = s.data)))) := by
  have hg : getOp s snap dd false =
      ({ setDataFromSnapshot s snap dd with isLoaded := true }, .ok) := by
    simp [getOp, href]
  cases snap with
  | none =>
      have ht := setData_tracking { s with exist := false } dd true
      refine ⟨by rw [hg], by rw [hg], ?_, ?_, ?_⟩
      · rw [hg]
        show (setData { s with exist := false } dd true).1.exist = false
        rw [ht.2.2.1]
      · intro _
        refine ⟨by rw [hg]; exact ht.2.1, ?_, ?_⟩
        · rw [hg]
          show isDirty (setData { s with exist := false } dd true).1 = true
          simp [isDirty, ht.1, ht.2.1]
        · intro hku hnd
          rw [hg]
          exact setData_data_eq { s with exist := false } dd true hid hku hnd
      · intro raw hraw
        exact absurd hraw (Option.noConfusion)
  | some raw0 =>
      have ht := setData_tracking { s with exist := true }
        (unserializeObject raw0) false
      refine ⟨by rw [hg], by rw [hg], ?_, ?_, ?_⟩
      · rw [hg]
        show (setData { s with exist := true } (unserializeObject raw0)
          false).1.exist = (some raw0).isSome
        rw [ht.2.2.1]
        rfl
      · intro hn
        exact absurd hn (by simp)
      · intro raw2 hraw
        have he : raw0 = raw2 := by injection hraw
        subst he
        refine ⟨?_, ?_⟩
        · rw [hg]
          show isDirty (setData { s with exist := true }
            (unserializeObject raw0) false).1 = false
          simp [isDirty, ht.1, ht.2.1]
        · intro hku hnd
          rw [hg]
          exact setData_data_eq { s with exist := true }
            (unserializeObject raw0) false hid hku hnd

/-- Witness for the amended C4 at a found snapshot {b: Timestamp 3} on a
document with data {a: 7}. -/
theorem c4_get_amended_witness :
    (getOp exDocSeven (some (.cons "b" (.vTimestamp 3) .nil)) .nil false).2
      = .ok ∧
    (getOp exDocSeven (some (.cons "b" (.vTimestamp 3) .nil)) .nil
      false).1.isLoaded = true ∧
    (getOp exDocSeven (some (.cons "b" (.vTimestamp 3) .nil)) .nil
      false).1.exist = true ∧
    isDirty (getOp exDocSeven (some (.cons "b" (.vTimestamp 3) .nil)) .nil
      false).1 = false ∧
    (getOp exDocSeven (some (.cons "b" (.vTimestamp 3) .nil)) .nil
      false).1.data = .cons "b" (.vDate 3) .nil := by
  obtain ⟨h1, h2, h3, _, h5⟩ := c4_get_amended exDocSeven
    (some (.cons "b" (.vTimestamp 3) .nil)) .nil rfl rfl
  obtain ⟨hd, hdata⟩ := h5 _ rfl
  refine ⟨h1, h2, h3, hd, ?_⟩
  rcases hdata rfl rfl with h | ⟨hde, _⟩
  · exact h
  · exact absurd hde (by decide)

theorem applyWrites_meta : ∀ (ws : List (String × FSValue)) (s : DocState),
    (applyWrites s ws).hasRef = s.hasRef ∧
    (applyWrites s ws).exist = s.exist ∧
    (applyWrites s ws).updatedAll = s.updatedAll
  | [], _ => ⟨rfl, rfl, rfl⟩
  | p :: tl, s => by
      have h1 := applyWrites_meta tl (setValue s p.1 p.2)
      have h2 := setValue_meta s p.1 p.2
      exact ⟨h1.1.trans h2.1, h1.2.1.trans h2.2.1, h1.2.2.trans h2.2.2.1⟩

theorem lastVal_cons (p : String × FSValue) (tl : List (String × FSValue))
    (k : String) :
    lastVal (p :: tl) k =
      (match lastVal tl k with
       | some v => some v
       | none => if p.1 = k then some p.2 else none) := rfl

theorem applyWrites_get : ∀ (ws : List (String × FSValue)) (s : DocState)
    (k : String), ws.all (fun p => !p.2.isUndef) = true →
    (applyWrites s ws).data.get k =
      (match lastVal ws k with
       | some v => v
       | none => s.data.get k)
  | [], _, _, _ => rfl
  | p :: tl, s, k, hdef => by
      rw [List.all_cons, Bool.and_eq_true] at hdef
      have hv : p.2.isUndef = false := by simpa using hdef.1
      have ih := applyWrites_get tl (setValue s p.1 p.2) k hdef.2
      show (applyWrites (setValue s p.1 p.2) tl).data.get k = _
      rw [ih, lastVal_cons]
      cases hlv : lastVal tl k with
      | some v => simp [hlv]
      | none =>
          simp only [hlv]
          by_cases hpk : p.1 = k
          · subst hpk
            rw [setValue_data_def s p.1 p.2 hv, get_set_self]
            simp
          · rw [setValue_data_def s p.1 p.2 hv, get_set_other _ _ _ _ hpk]
            simp [hpk]

theorem ledgerHas_eq_keys (l : Ledger) (k : String) :
    ledgerHas l k = (l.map Prod.fst).any (fun k2 => k2 = k) := by
  induction l with
  | nil => rfl
  | cons p tl ih =>
      simp only [ledgerHas, List.any_cons, List.map_cons] at ih ⊢
      rw [ih]

theorem firstKeysAux_congr : ∀ (ks seen1 seen2 : List String),
    (∀ k, seen1.any (fun k2 => k2 = k) = seen2.any (fun k2 => k2 = k)) →
    firstKeysAux ks seen1 = firstKeysAux ks seen2
  | [], _, _, _ => rfl
  | k :: tl, seen1, seen2, h => by
      simp only [firstKeysAux, h k]
      by_cases hc : seen2.any (fun k2 => k2 = k) = true
      · rw [if_pos hc, if_pos hc]
        exact firstKeysAux_congr tl seen1 seen2 h
      · rw [if_neg hc, if_neg hc]
        congr 1
        refine firstKeysAux_congr tl (k :: seen1) (k :: seen2) ?_
        intro k3
        simp [List.any_cons, h k3]

theorem applyWrites_keys : ∀ (ws : List (String × FSValue)) (s : DocState),
    (applyWrites s ws).updated.map Prod.fst =
      s.updated.map Prod.fst ++
        firstKeysAux (ws.map Prod.fst) (s.updated.map Prod.fst)
  | [], s => by simp [firstKeysAux, applyWrites]
  | p :: tl, s => by
      have ih := applyWrites_keys tl (setValue s p.1 p.2)
      show (applyWrites (setValue s p.1 p.2) tl).updated.map Prod.fst = _
      rw [ih]
      by_cases hl : ledgerHas s.updated p.1 = true
      · have hupd : (setValue s p.1 p.2).updated = s.updated := by
          rw [setValue_updated, if_pos hl]
        have hc : (s.updated.map Prod.fst).any (fun k2 => k2 = p.1) = true := by
          rw [← ledgerHas_eq_keys]; exact hl
        rw [hupd]
        simp only [List.map_cons, firstKeysAux, hc, if_pos]
      · have hlf : ledgerHas s.updated p.1 = false := by simpa using hl
        have hupd : (setValue s p.1 p.2).updated = s.updated ++
            [(p.1, if (s.data.get p.1).isDeleteF then FSValue.undef
                   else s.data.get p.1)] := by
          rw [setValue_updated, if_neg (by simp [hlf])]
        have hc : (s.updated.map Prod.fst).any (fun k2 => k2 = p.1) = false := by
          rw [← ledgerHas_eq_keys]; exact hlf
        rw [hupd]
        simp only [List.map_append, List.map_cons, List.map_nil]
        rw [show firstKeysAux (p.1 :: tl.map Prod.fst) (s.updated.map Prod.fst)
            = p.1 :: firstKeysAux (tl.map Prod.fst)
                (p.1 :: s.updated.map Prod.fst) from by
          simp [firstKeysAux, hc]]
        rw [firstKeysAux_congr (tl.map Prod.fst)
          (s.updated.map Prod.fst ++ [p.1]) (p.1 :: s.updated.map Prod.fst)
          (by intro k3; simp [List.any_append, List.any_cons, Bool.or_comm])]
        simp [List.append_assoc]

theorem serializeValue_not_undef (v : FSValue) (h : v.isUndef = false) :
    (serializeValue v).isUndef = false := by
  cases v <;> simp_all [serializeValue, FSValue.isUndef]

theorem serializeUpdated_keys : ∀ (data : FSObj) (upd : Ledger),
    (∀ p ∈ upd, (serializeValue (data.get p.1)).isUndef = false) →
    (serializeUpdated data upd).keys = upd.map Prod.fst
  | _, [], _ => rfl
  | data, (k1, w) :: tl, h => by
      have h1 : (serializeValue (data.get k1)).isUndef = false :=
        h (k1, w) (List.mem_cons_self _ _)
      have h2 : ∀ p ∈ tl, (serializeValue (data.get p.1)).isUndef = false :=
        fun p hp => h p (List.mem_cons_of_mem _ hp)
      simp [serializeUpdated, FSObj.keys, h1,
        serializeUpdated_keys data tl h2]

theorem lastVal_mem : ∀ (ws : List (String × FSValue)) (k : String)
    (v : FSValue), lastVal ws k = some v → (k, v) ∈ ws
  | [], k, v, h => by simp [lastVal] at h
  | p :: tl, k, v, h => by
      rw [lastVal_cons] at h
      cases hlv : lastVal tl k with
      | some w =>
          rw [hlv] at h
          have hwv : w = v := by injection h
          exact List.mem_cons_of_mem _ (lastVal_mem tl k v (hwv ▸ hlv))
      | none =>
          rw [hlv] at h
          by_cases hpk : p.1 = k
          · rw [if_pos hpk] at h
            have hv2 : p.2 = v := by injection h
            rw [← hpk, ← hv2]
            simp
          · rw [if_neg hpk] at h
            exact absurd h (by simp)

theorem mem_keys_lastVal : ∀ (ws : List (String × FSValue)) (k : String),
    k ∈ ws.map Prod.fst → ∃ v, lastVal ws k = some v
  | [], k, h => by simp at h
  | p :: tl, k, h => by
      cases hlv : lastVal tl k with
      | some w => exact ⟨w, by rw [lastVal_cons, hlv]⟩
      | none =>
          simp only [List.map_cons, List.mem_cons] at h
          rcases h with h | h
          · exact ⟨p.2, by rw [lastVal_cons, hlv, if_pos h.symm]⟩
          · obtain ⟨v, hv⟩ := mem_keys_lastVal tl k h
            rw [hv] at hlv
            exact absurd hlv (by simp)

theorem firstKeysAux_sub : ∀ (ks seen : List String) (k : String),
    k ∈ firstKeysAux ks seen → k ∈ ks
  | [], _, k, h => by simp [firstKeysAux] at h
  | k1 :: tl, seen, k, h => by
      simp only [firstKeysAux] at h
      split at h
      · exact List.mem_cons_of_mem _ (firstKeysAux_sub tl seen k h)
      · rcases List.mem_cons.mp h with h | h
        · exact h ▸ List.mem_cons_self _ _
        · exact List.mem_cons_of_mem _ (firstKeysAux_sub tl (k1 :: seen) k h)

theorem mem_firstKeysAux : ∀ (ks seen : List String) (k : String),
    k ∈ ks → seen.any (fun k2 => k2 = k) = false → k ∈ firstKeysAux ks seen
  | [], _, k, h, _ => by simp at h
  | k1 :: tl, seen, k, h, hseen => by
      simp only [firstKeysAux]
      by_cases hc : seen.any (fun k2 => k2 = k1) = true
      · rw [if_pos hc]
        rcases List.mem_cons.mp h with he | hm
        · subst he
          rw [hseen] at hc
          exact Bool.noConfusion hc
        · exact mem_firstKeysAux tl seen k hm hseen
      · rw [if_neg hc]
        rcases List.mem_cons.mp h with he | hm
        · exact he ▸ List.mem_cons_self _ _
        · by_cases hek : k = k1
          · exact hek ▸ List.mem_cons_self _ _
          · refine List.mem_cons_of_mem _
              (mem_firstKeysAux tl (k1 :: seen) k hm ?_)
            have hne2 : k1 ≠ k := fun he2 => hek he2.symm
            simp [List.any_cons, hne2, hseen]

/-- C1: on a clean document (empty ledger) with a resolved reference,
exists=true and no full-overwrite flag pending, a sequence of tracked
field writes of defined values followed by save(force=false) issues the
partial-update write, and its payload has exactly the written field names
(first-occurrence order, one entry per field) with each field mapped to
the serialization of the last value written to it. -/
theorem c1_update_payload (s : DocState) (ws : List (String × FSValue))
    (href : s.hasRef = true) (hex : s.exist = true)
    (hua : s.updatedAll = false) (hclean : s.updated = [])
    (hne : ws ≠ []) (hdef : ws.all (fun p => !p.2.isUndef) = true) :
    ∃ payload : FSObj,
      save (applyWrites s ws) false true =
        (afterSave (applyWrites s ws), .updateWrite payload) ∧
      payload.keys = firstKeys (ws.map Prod.fst) ∧
      (∀ (k : String) (v : FSValue), lastVal ws k = some v →
        payload.get k = serializeValue v) := by
  have hmeta := applyWrites_meta ws s
  have hkeys : (applyWrites s ws).updated.map Prod.fst =
      firstKeys (ws.map Prod.fst) := by
    rw [applyWrites_keys ws s, hclean]
    simp [firstKeys]
  have hdataget : ∀ k v, lastVal ws k = some v →
      (applyWrites s ws).data.get k = v := by
    intro k v hv
    rw [applyWrites_get ws s k hdef, hv]
  have hvaldef : ∀ k v, lastVal ws k = some v → v.isUndef = false := by
    intro k v hv
    have hmem := lastVal_mem ws k v hv
    have h2 := List.all_eq_true.mp hdef _ hmem
    simpa using h2
  have hledgood : ∀ p ∈ (applyWrites s ws).updated,
      (serializeValue ((applyWrites s ws).data.get p.1)).isUndef = false := by
    intro p hp
    have hk1 : p.1 ∈ (applyWrites s ws).updated.map Prod.fst :=
      List.mem_map_of_mem _ hp
    rw [hkeys] at hk1
    have hk2 : p.1 ∈ ws.map Prod.fst := firstKeysAux_sub _ _ _ hk1
    obtain ⟨v, hv⟩ := mem_keys_lastVal ws p.1 hk2
    rw [hdataget p.1 v hv]
    exact serializeValue_not_undef v (hvaldef p.1 v hv)
  have hnonempty : (applyWrites s ws).updated.isEmpty = false := by
    have hne2 : (applyWrites s ws).updated.map Prod.fst ≠ [] := by
      rw [hkeys]
      cases ws with
      | nil => exact absurd rfl hne
      | cons p tl => simp [firstKeys, firstKeysAux]
    cases hupd : (applyWrites s ws).updated with
    | nil =>
        rw [hupd] at hne2
        simp at hne2
    | cons q tlq => rfl
  refine ⟨serializeUpdated (applyWrites s ws).data (applyWrites s ws).updated,
    ?_, ?_, ?_⟩
  · have h1 : (applyWrites s ws).hasRef = true := hmeta.1.trans href
    have h2 : (applyWrites s ws).exist = true := hmeta.2.1.trans hex
    have h3 : (applyWrites s ws).updatedAll = false := hmeta.2.2.trans hua
    simp [save, updateOp, h1, h2, h3, hnonempty, serialize]
  · rw [serializeUpdated_keys _ _ hledgood, hkeys]
  · intro k v hv
    have hkmem : k ∈ ws.map Prod.fst := by
      have := List.mem_map_of_mem Prod.fst (lastVal_mem ws k v hv)
      simpa using this
    have hkled : ledgerHas (applyWrites s ws).updated k = true := by
      rw [ledgerHas_eq_keys, hkeys]
      have hkfk : k ∈ firstKeys (ws.map Prod.fst) :=
        mem_firstKeysAux _ [] k hkmem (by simp)
      simp only [List.any_eq_true, decide_eq_true_eq]
      exact ⟨k, hkfk, rfl⟩
    have hnu : (serializeValue ((applyWrites s ws).data.get k)).isUndef
        = false := by
      rw [hdataget k v hv]
      exact serializeValue_not_undef v (hvaldef k v hv)
    rw [serializeUpdated_get _ _ k hkled hnu, hdataget k v hv]

/-- Witness for C1: document {a: 7}, writes a=1, a=2, b="x"; save issues
the update write whose payload has keys [a, b], with a mapped to the
serialization of 2 (the last value), not the intermediate 1. -/
theorem c1_update_payload_witness :
    ∃ payload : FSObj,
      save (applyWrites exDocSeven
          [("a", .vInt 1), ("a", .vInt 2), ("b", .vStr "x")]) false true =
        (afterSave (applyWrites exDocSeven
          [("a", .vInt 1), ("a", .vInt 2), ("b", .vStr "x")]),
          .updateWrite payload) ∧
      payload.keys = firstKeys
        ([("a", FSValue.vInt 1), ("a", FSValue.vInt 2),
          ("b", FSValue.vStr "x")].map Prod.fst) ∧
      (∀ (k : String) (v : FSValue),
        lastVal [("a", .vInt 1), ("a", .vInt 2), ("b", .vStr "x")] k
          = some v → payload.get k = serializeValue v) :=
  c1_update_payload exDocSeven
    [("a", .vInt 1), ("a", .vInt 2), ("b", .vStr "x")]
    rfl rfl rfl rfl (by simp) rfl

end FirestoreORM
